import Mathlib

/-!
# Verification of the govuk-casa validation processor

Shallow embedding of `src/lib/validation/processor.js` and proofs about it.

The processor dispatches one pending unit of work per configured field
(via `queueValidator`), waits for all of them, then aggregates the settled
unit results with `gatherErrors`:

* each unit result that is an array is traversed and every element `e` is
  grouped under the property key obtained from `e.field`;
* the accumulator `grouped` is created with `Object.create(null)`, so the
  existence check `!grouped[e.field]` consults own entries only — we model
  it as an insertion-ordered association list of own entries (`ErrMap`);
* `reduceGroupedErrors` optionally collapses every field's list to its
  first element;
* the outcome is a resolution when the mapping has no keys, and a
  rejection carrying the mapping otherwise.

JavaScript dynamic values are modelled by `JSValue`; property access
`e.field` throws a `TypeError` on `null`/`undefined` and yields `undefined`
on primitives and on objects without the property, and JavaScript coerces
the resulting value to a string property key (`undefined` becomes the key
"undefined").  A computation that can throw is an `Except Unit` value, the
`.error` case standing for the propagated exception.
-/

set_option autoImplicit false

namespace Casa

/-- A JavaScript value, as far as the aggregation code inspects one:
primitives, plain objects (their own enumerable properties, in insertion
order) and arrays. -/
inductive JSValue where
  | vUndefined : JSValue
  | vNull : JSValue
  | vBool : Bool → JSValue
  | vNum : Int → JSValue
  | vStr : String → JSValue
  | vObj : List (String × JSValue) → JSValue
  | vArr : List JSValue → JSValue

namespace JSValue

/-- `Array.isArray`. -/
def isArr : JSValue → Bool
  | .vArr _ => true
  | _ => false

end JSValue

mutual

/-- JavaScript `ToString`, as used when a value is coerced to a property
key: `undefined` → "undefined", `null` → "null", plain objects →
"[object Object]", arrays → `Array.prototype.join` with separator ",". -/
def jsToString : JSValue → String
  | .vUndefined => "undefined"
  | .vNull => "null"
  | .vBool true => "true"
  | .vBool false => "false"
  | .vNum n => toString n
  | .vStr s => s
  | .vObj _ => "[object Object]"
  | .vArr es => jsArrJoin es

/-- `Array.prototype.join` with separator ",": elements are stringified,
with `null` and `undefined` elements contributing the empty string. -/
def jsArrJoin : List JSValue → String
  | [] => ""
  | [e] => jsJoinElem e
  | e :: rest => jsJoinElem e ++ "," ++ jsArrJoin rest

/-- One element of an array join: `null`/`undefined` become "". -/
def jsJoinElem : JSValue → String
  | .vUndefined => ""
  | .vNull => ""
  | e => jsToString e

end

/-- The property access `e.field`.  Throws a `TypeError` on `null` and
`undefined`; on an object it looks up the own property `field` (plain
object literals inherit no `field` property, and neither do boxed
primitives or arrays), yielding `undefined` when absent. -/
def jsFieldAccess : JSValue → Except Unit JSValue
  | .vNull => .error ()
  | .vUndefined => .error ()
  | .vObj props => .ok ((props.lookup "field").getD .vUndefined)
  | _ => .ok .vUndefined

/-- The own string-keyed property table of the accumulator object
`grouped`, as an association list in insertion order.  Because
`grouped = Object.create(null)` has a null prototype, property lookup on
it consults exactly this table.  Note that `Object.keys` does *not*
enumerate this table in raw insertion order: per
OrdinaryOwnPropertyKeys, array-index keys (canonical numeric strings
denoting an integer below 2^32 - 1) are enumerated first, in ascending
numeric order, before the remaining string keys in insertion order.
Lookup, `Object.keys(...).length` and key-set facts are insensitive to
this; statements about the *enumerated* key order must go through
`jsOwnKeys` below, which models that enumeration. -/
abbrev ErrMap := List (String × List JSValue)

/-- Own-property lookup on the accumulator (first matching key). -/
def lookupField (m : ErrMap) (k : String) : Option (List JSValue) :=
  match m with
  | [] => none
  | (k', v) :: rest => if k' = k then some v else lookupField rest k

/-- `grouped[key].push(e)`: append `e` to the array stored at `key`
(the caller has ensured the key is present). -/
def pushAt (m : ErrMap) (k : String) (e : JSValue) : ErrMap :=
  match m with
  | [] => []
  | (k', v) :: rest =>
      if k' = k then (k', v ++ [e]) :: rest else (k', v) :: pushAt rest k e

/-- The body of the inner `errors.forEach((e) => ...)` in `gatherErrors`:
evaluate `e.field` (which may throw), coerce it to a property key, create
the entry with an empty array if the falsy-check `!grouped[e.field]` fires
(an existing entry is always an array, hence truthy, so the check is
equivalent to absence), then push `e`. -/
def groupStep (grouped : ErrMap) (e : JSValue) : Except Unit ErrMap := do
  let f ← jsFieldAccess e
  let key := jsToString f
  let grouped := if (lookupField grouped key).isNone then grouped ++ [(key, [])] else grouped
  pure (pushAt grouped key e)

/-- One iteration of the outer `errorsList.forEach((errors) => ...)`:
a unit result that is an array is traversed element by element, anything
else is skipped (`Array.isArray` guard). -/
def groupUnit (grouped : ErrMap) (errors : JSValue) : Except Unit ErrMap :=
  match errors with
  | .vArr es => es.foldlM groupStep grouped
  | _ => pure grouped

/-- The whole grouping pass of `gatherErrors`, starting from the fresh
`Object.create(null)` accumulator. -/
def groupAll (errorsList : List JSValue) : Except Unit ErrMap :=
  errorsList.foldlM groupUnit []

/-- `reduceGroupedErrors`: for every key of the input, store the
one-element array `[errors[field][0]]` under the same key in a fresh
null-prototype object (indexing an empty array yields `undefined`). -/
def reduceGroupedErrors (errors : ErrMap) : ErrMap :=
  errors.map fun p => (p.1, [p.2.headD .vUndefined])

/-- The engine's terminal signal: a resolution, or a rejection carrying
the error mapping. -/
inductive Outcome where
  | resolve : Outcome
  | reject : ErrMap → Outcome

/-- `gatherErrors`: group the settled unit results, optionally reduce,
then reject with the mapping when `Object.keys(grouped).length` is
non-zero and resolve otherwise.  An `.error` value is the `TypeError`
thrown out of the `forEach` (which turns the returned promise into a
rejection that carries the exception, not an error mapping). -/
def gatherErrors (reduceErrors : Bool) (errorsList : List JSValue) : Except Unit Outcome := do
  let grouped ← groupAll errorsList
  let grouped := if reduceErrors then reduceGroupedErrors grouped else grouped
  pure (if grouped.length ≠ 0 then .reject grouped else .resolve)

/-- Modelled from the spec: `queueValidator` lives in
`src/lib/validation/processor/queue.js`, which is not among the sources;
per the spec (§4.1, §6) it appends to the queue one pending unit of work
for the given field, and the unit settles with an empty/absent value or
with a list of error records.  We represent a pending unit by the value
it eventually settles with. -/
def queueValidator (validatorQueue : List JSValue) (settledResult : JSValue) : List JSValue :=
  validatorQueue ++ [settledResult]

/-- The exported engine (`module.exports`): enumerate the fields of
`fieldValidators` in order, queue one validator unit per field, and if
the queue is non-empty wait for all units and aggregate with
`gatherErrors`; otherwise resolve immediately.  `settle` gives the value
each field's unit settles with (the field's validators are external
collaborators). -/
def runProcessor (fieldValidators : List (String × JSValue)) (reduceErrors : Bool)
    (settle : String → JSValue) : Except Unit Outcome :=
  let validatorQueue :=
    fieldValidators.foldl (fun q p => queueValidator q (settle p.1)) []
  if validatorQueue.length ≠ 0 then
    gatherErrors reduceErrors validatorQueue
  else
    pure .resolve

/-!
## Specification-side vocabulary

Pure functions used to *state* properties of the embedding: the property
key a record is grouped under, the flattened stream of records in
dispatch order, and the first-occurrence order of keys.
-/

/-- The property key an element `e` is grouped under, when the access
`e.field` does not throw. -/
def recordKey? (e : JSValue) : Option String :=
  match jsFieldAccess e with
  | .ok f => some (jsToString f)
  | .error _ => none

/-- The records contributed by one unit result: the elements when it is
an array, nothing otherwise. -/
def unitRecords (r : JSValue) : List JSValue :=
  match r with
  | .vArr es => es
  | _ => []

/-- All records of a result list, in dispatch order. -/
def recordsOf (errorsList : List JSValue) : List JSValue :=
  errorsList.flatMap unitRecords

/-- The records grouped under key `k`, in dispatch order. -/
def recordsWithKey (k : String) (rs : List JSValue) : List JSValue :=
  rs.filter fun e => decide (recordKey? e = some k)

/-- The fields for which at least one record was produced (with
multiplicity, in dispatch order). -/
def recordedFields (errorsList : List JSValue) : List String :=
  (recordsOf errorsList).filterMap recordKey?

/-- The keys of the record stream in order of first occurrence, skipping
keys already `seen`. -/
def firstOccKeysFrom (seen : List String) : List JSValue → List String
  | [] => []
  | e :: rest =>
      match recordKey? e with
      | none => firstOccKeysFrom seen rest
      | some k =>
          if k ∈ seen then firstOccKeysFrom seen rest
          else k :: firstOccKeysFrom (seen ++ [k]) rest

/-- The first record grouped under key `k`, in dispatch order. -/
def firstRecordFor (rs : List JSValue) (k : String) : Option JSValue :=
  rs.find? fun e => decide (recordKey? e = some k)

/-- A proper error record per the spec's data model: an object whose
`field` attribute is a string. -/
def isErrorRecord (e : JSValue) : Bool :=
  match e with
  | .vObj props =>
      match props.lookup "field" with
      | some (.vStr _) => true
      | _ => false
  | _ => false

/-- A well-shaped unit result: empty/absent or a non-list, or a
non-empty list of proper error records. -/
def wfResult (r : JSValue) : Bool :=
  match r with
  | .vArr es => es.isEmpty || es.all isErrorRecord
  | _ => true

/-- A failing unit result: a non-empty list. -/
def failingResult (r : JSValue) : Bool :=
  match r with
  | .vArr es => !es.isEmpty
  | _ => false

/-- The net effect of one `groupStep` on the accumulator, as a pure
function: append to the entry for `k` when present, create the entry at
the end otherwise. -/
def addRec (m : ErrMap) (k : String) (e : JSValue) : ErrMap :=
  match m with
  | [] => [(k, [e])]
  | (k', l) :: rest =>
      if k' = k then (k', l ++ [e]) :: rest else (k', l) :: addRec rest k e

/-- Combining an existing entry with the records later grouped under the
same key. -/
def joinLookup (o : Option (List JSValue)) (ks : List JSValue) : Option (List JSValue) :=
  match o, ks with
  | some l, ks => some (l ++ ks)
  | none, [] => none
  | none, ks => some ks

/-!
## The enumeration order of `Object.keys`

Per OrdinaryOwnPropertyKeys, `Object.keys` lists array-index keys first
in ascending numeric order and only then the remaining string keys in
insertion order.  An *array index* is a canonical numeric string (no
leading zeros, except "0" itself) whose value is below 2^32 - 1.
-/

/-- The value of a decimal digit character, if it is one. -/
def digitVal? (c : Char) : Option Nat :=
  if c.isDigit then some (c.toNat - 48) else none

/-- Accumulate the value of a decimal digit string; `none` on any
non-digit character. -/
def parseDigitsAux : List Char → Nat → Option Nat
  | [], acc => some acc
  | c :: cs, acc =>
      match digitVal? c with
      | some d => parseDigitsAux cs (acc * 10 + d)
      | none => none

/-- Whether a property key is an array index: a canonical decimal
string (non-empty, digits only, no leading zero unless it is "0")
denoting an integer at most 2^32 - 2. -/
def isArrayIndexKey (s : String) : Bool :=
  match s.data with
  | [] => false
  | c :: cs =>
      (c != '0' || cs.isEmpty) &&
      (match parseDigitsAux (c :: cs) 0 with
       | some n => n ≤ 4294967294
       | none => false)

/-- The numeric value of an array-index key (0 on non-digit keys, which
never reach the sort). -/
def keyNum (s : String) : Nat :=
  (parseDigitsAux s.data 0).getD 0

/-- Insert an array-index key into an ascending-by-value list. -/
def insertIndexKey (k : String) : List String → List String
  | [] => [k]
  | k' :: rest =>
      if keyNum k < keyNum k' then k :: k' :: rest else k' :: insertIndexKey k rest

/-- Sort array-index keys in ascending numeric order. -/
def sortIndexKeys : List String → List String
  | [] => []
  | k :: rest => insertIndexKey k (sortIndexKeys rest)

/-- The list `Object.keys` produces on an object whose own string-keyed
property table is `m`: array-index keys first, in ascending numeric
order, then the remaining string keys in insertion order.  This is the
key order a consumer of the rejection payload observes. -/
def jsOwnKeys (m : ErrMap) : List String :=
  sortIndexKeys ((m.map Prod.fst).filter isArrayIndexKey) ++
    (m.map Prod.fst).filter fun k => !isArrayIndexKey k

/-!
## Lemmas about the accumulator operations
-/

theorem lookupField_isSome_iff (m : ErrMap) (k : String) :
    (lookupField m k).isSome ↔ k ∈ m.map Prod.fst := by
  induction m with
  | nil => simp [lookupField]
  | cons p rest ih =>
      obtain ⟨k', v⟩ := p
      by_cases h : k' = k
      · subst h; simp [lookupField]
      · have h' : k ≠ k' := fun hh => h hh.symm
        simp [lookupField, h, ih, h']

theorem pushAt_append_new (m : ErrMap) (k : String) (e : JSValue)
    (h : lookupField m k = none) :
    pushAt (m ++ [(k, [])]) k e = addRec m k e := by
  induction m with
  | nil => simp [pushAt, addRec]
  | cons p rest ih =>
      obtain ⟨k', v⟩ := p
      by_cases hk : k' = k
      · simp [lookupField, hk] at h
      · simp only [lookupField, hk, if_false] at h
        simp [pushAt, addRec, hk, ih h]

theorem pushAt_existing (m : ErrMap) (k : String) (e : JSValue)
    (h : (lookupField m k).isSome) :
    pushAt m k e = addRec m k e := by
  induction m with
  | nil => simp [lookupField] at h
  | cons p rest ih =>
      obtain ⟨k', v⟩ := p
      by_cases hk : k' = k
      · simp [pushAt, addRec, hk]
      · simp only [lookupField, hk, if_false] at h
        simp [pushAt, addRec, hk, ih h]

theorem groupStep_eq_addRec (m : ErrMap) (e : JSValue) (k : String)
    (h : recordKey? e = some k) : groupStep m e = .ok (addRec m k e) := by
  unfold recordKey? at h
  cases hf : jsFieldAccess e with
  | error u => rw [hf] at h; cases h
  | ok f =>
      rw [hf] at h
      have hk : jsToString f = k := by simpa using h
      subst hk
      unfold groupStep
      rw [hf]
      by_cases hl : (lookupField m (jsToString f)).isNone
      · have hnone : lookupField m (jsToString f) = none := by
          simpa [Option.isNone_iff_eq_none] using hl
        simp [hl, pushAt_append_new m _ e hnone]
      · have hsome : (lookupField m (jsToString f)).isSome := by
          cases hx : lookupField m (jsToString f) with
          | none => rw [hx] at hl; simp at hl
          | some v => simp
        simp [hl, pushAt_existing m _ e hsome]

theorem groupStep_error (m : ErrMap) (e : JSValue)
    (h : recordKey? e = none) : groupStep m e = .error () := by
  unfold recordKey? at h
  cases hf : jsFieldAccess e with
  | error u => unfold groupStep; rw [hf]; rfl
  | ok f => rw [hf] at h; cases h

theorem map_fst_addRec_of_none (m : ErrMap) (k : String) (e : JSValue)
    (h : lookupField m k = none) :
    (addRec m k e).map Prod.fst = m.map Prod.fst ++ [k] := by
  induction m with
  | nil => simp [addRec]
  | cons p rest ih =>
      obtain ⟨k', v⟩ := p
      by_cases hk : k' = k
      · simp [lookupField, hk] at h
      · simp only [lookupField, hk, if_false] at h
        simp [addRec, hk, ih h]

theorem map_fst_addRec_of_some (m : ErrMap) (k : String) (e : JSValue)
    (h : (lookupField m k).isSome) :
    (addRec m k e).map Prod.fst = m.map Prod.fst := by
  induction m with
  | nil => simp [lookupField] at h
  | cons p rest ih =>
      obtain ⟨k', v⟩ := p
      by_cases hk : k' = k
      · simp [addRec, hk]
      · simp only [lookupField, hk, if_false] at h
        simp [addRec, hk, ih h]

theorem lookupField_addRec_self (m : ErrMap) (k : String) (e : JSValue) :
    lookupField (addRec m k e) k = some ((lookupField m k).getD [] ++ [e]) := by
  induction m with
  | nil => simp [addRec, lookupField]
  | cons p rest ih =>
      obtain ⟨k', v⟩ := p
      by_cases hk : k' = k
      · simp [addRec, lookupField, hk]
      · simp [addRec, lookupField, hk, ih]

theorem lookupField_addRec_ne (m : ErrMap) (k k' : String) (e : JSValue)
    (h : k' ≠ k) : lookupField (addRec m k e) k' = lookupField m k' := by
  have h' : ¬(k = k') := fun hh => h hh.symm
  induction m with
  | nil => simp [addRec, lookupField, h']
  | cons p rest ih =>
      obtain ⟨k'', v⟩ := p
      by_cases hk : k'' = k
      · subst hk
        simp [addRec, lookupField, h']
      · by_cases hk' : k'' = k'
        · subst hk'
          simp [addRec, lookupField, hk]
        · simp [addRec, lookupField, hk, hk', ih]

@[simp]
theorem except_bind_ok {α β : Type} (a : α) (f : α → Except Unit β) :
    (Except.ok a >>= f : Except Unit β) = f a := rfl

@[simp]
theorem except_bind_error {α β : Type} (f : α → Except Unit β) :
    (Except.error () >>= f : Except Unit β) = .error () := rfl

@[simp]
theorem joinLookup_nil (o : Option (List JSValue)) : joinLookup o [] = o := by
  cases o <;> simp [joinLookup]

theorem joinLookup_some (l : List JSValue) (ks : List JSValue) :
    joinLookup (some l) ks = some (l ++ ks) := rfl

/-!
## The grouping fold
-/

theorem foldlM_groupStep_append (xs ys : List JSValue) (m : ErrMap) :
    (xs ++ ys).foldlM groupStep m =
      xs.foldlM groupStep m >>= fun m' => ys.foldlM groupStep m' := by
  induction xs generalizing m with
  | nil => simp
  | cons e xs ih =>
      rw [List.cons_append, List.foldlM_cons, List.foldlM_cons]
      cases hg : groupStep m e with
      | error u => cases u; simp
      | ok m' => simp [ih]

theorem foldlM_groupUnit_eq (L : List JSValue) (m : ErrMap) :
    L.foldlM groupUnit m = (recordsOf L).foldlM groupStep m := by
  induction L generalizing m with
  | nil => simp [recordsOf]
  | cons r L ih =>
      rw [List.foldlM_cons]
      have hrec : recordsOf (r :: L) = unitRecords r ++ recordsOf L := by
        simp [recordsOf]
      rw [hrec, foldlM_groupStep_append]
      have hu : groupUnit m r = (unitRecords r).foldlM groupStep m := by
        cases r <;> rfl
      rw [hu]
      cases hx : (unitRecords r).foldlM groupStep m with
      | error u => cases u; simp
      | ok m' => simpa using ih m'

/-- Master characterization of the grouping fold when every record's key
evaluates: the fold succeeds, the key list grows by the new keys in first
occurrence order, and each key's entry collects the records grouped
under it, in order. -/
theorem groupFold_ok (rs : List JSValue) :
    ∀ m : ErrMap, (∀ e ∈ rs, (recordKey? e).isSome) →
      ∃ m', rs.foldlM groupStep m = .ok m' ∧
        m'.map Prod.fst = m.map Prod.fst ++ firstOccKeysFrom (m.map Prod.fst) rs ∧
        ∀ k, lookupField m' k = joinLookup (lookupField m k) (recordsWithKey k rs) := by
  induction rs with
  | nil =>
      intro m _
      exact ⟨m, rfl, by simp [firstOccKeysFrom], fun k => by simp [recordsWithKey]⟩
  | cons e rest ih =>
      intro m hkeys
      have hke : (recordKey? e).isSome := hkeys e (by simp)
      obtain ⟨k, hk⟩ := Option.isSome_iff_exists.mp hke
      have hstep := groupStep_eq_addRec m e k hk
      have hrest : ∀ e' ∈ rest, (recordKey? e').isSome := fun e' he' =>
        hkeys e' (by simp [he'])
      obtain ⟨m', hfold, hkeys', hlook⟩ := ih (addRec m k e) hrest
      refine ⟨m', ?_, ?_, ?_⟩
      · rw [List.foldlM_cons, hstep]
        simpa using hfold
      · by_cases hmem : (lookupField m k).isSome
        · have h1 := map_fst_addRec_of_some m k e hmem
          have hkmem : k ∈ m.map Prod.fst := (lookupField_isSome_iff m k).mp hmem
          rw [hkeys', h1]
          conv_rhs => rw [firstOccKeysFrom]
          simp [hk, hkmem]
        · have hnone : lookupField m k = none := Option.not_isSome_iff_eq_none.mp hmem
          have h1 := map_fst_addRec_of_none m k e hnone
          have hkmem : k ∉ m.map Prod.fst := by
            rw [← lookupField_isSome_iff]
            simpa using hmem
          rw [hkeys', h1, List.append_assoc]
          congr 1
          conv_rhs => rw [firstOccKeysFrom]
          simp [hk, hkmem]
      · intro k'
        by_cases hkk : k' = k
        · subst hkk
          rw [hlook k', lookupField_addRec_self]
          have hrw : recordsWithKey k' (e :: rest) = e :: recordsWithKey k' rest := by
            simp [recordsWithKey, hk]
          rw [hrw]
          cases lookupField m k' <;> simp [joinLookup]
        · rw [hlook k', lookupField_addRec_ne m k k' e hkk]
          have hne : ¬(k = k') := fun hh => hkk hh.symm
          have hrw : recordsWithKey k' (e :: rest) = recordsWithKey k' rest := by
            simp [recordsWithKey, hk, hne]
          rw [hrw]

/-- The grouping fold succeeds exactly when every record's key
evaluates; otherwise the `TypeError` propagates. -/
theorem groupFold_ok_iff (rs : List JSValue) :
    ∀ m : ErrMap, (∃ m', rs.foldlM groupStep m = .ok m') ↔
      ∀ e ∈ rs, (recordKey? e).isSome := by
  induction rs with
  | nil => intro m; simpa using ⟨m, rfl⟩
  | cons e rest ih =>
      intro m
      constructor
      · rintro ⟨m', h⟩
        rw [List.foldlM_cons] at h
        cases hke : recordKey? e with
        | none =>
            rw [groupStep_error m e hke] at h
            simp at h
        | some k =>
            rw [groupStep_eq_addRec m e k hke] at h
            simp only [except_bind_ok] at h
            intro e' he'
            rcases List.mem_cons.mp he' with rfl | hmem
            · simp [hke]
            · exact ((ih (addRec m k e)).mp ⟨m', h⟩) e' hmem
      · intro hkeys
        obtain ⟨m', h, _, _⟩ := groupFold_ok (e :: rest) m hkeys
        exact ⟨m', h⟩

/-!
## First-occurrence keys and lookup utilities
-/

theorem mem_firstOccKeysFrom (rs : List JSValue) :
    ∀ (seen : List String) (k : String), k ∈ firstOccKeysFrom seen rs ↔
      k ∉ seen ∧ ∃ e ∈ rs, recordKey? e = some k := by
  induction rs with
  | nil => simp [firstOccKeysFrom]
  | cons e rest ih =>
      intro seen k
      cases hke : recordKey? e with
      | none =>
          rw [show firstOccKeysFrom seen (e :: rest) = firstOccKeysFrom seen rest from by
            simp [firstOccKeysFrom, hke]]
          rw [ih seen k]
          constructor
          · rintro ⟨hs, e', he', hk'⟩
            exact ⟨hs, e', List.mem_cons_of_mem _ he', hk'⟩
          · rintro ⟨hs, e', he', hk'⟩
            rcases List.mem_cons.mp he' with rfl | hm
            · rw [hke] at hk'; cases hk'
            · exact ⟨hs, e', hm, hk'⟩
      | some k' =>
          by_cases hmem : k' ∈ seen
          · rw [show firstOccKeysFrom seen (e :: rest) = firstOccKeysFrom seen rest from by
              simp [firstOccKeysFrom, hke, hmem]]
            rw [ih seen k]
            constructor
            · rintro ⟨hs, e', he', hk'⟩
              exact ⟨hs, e', List.mem_cons_of_mem _ he', hk'⟩
            · rintro ⟨hs, e', he', hk'⟩
              rcases List.mem_cons.mp he' with rfl | hm
              · rw [hke] at hk'
                injection hk' with hkk
                subst hkk
                exact absurd hmem hs
              · exact ⟨hs, e', hm, hk'⟩
          · rw [show firstOccKeysFrom seen (e :: rest)
                = k' :: firstOccKeysFrom (seen ++ [k']) rest from by
              simp [firstOccKeysFrom, hke, hmem]]
            constructor
            · intro h
              rcases List.mem_cons.mp h with rfl | hm
              · exact ⟨hmem, e, List.mem_cons_self _ _, hke⟩
              · obtain ⟨hs, e', he', hk'⟩ := (ih (seen ++ [k']) k).mp hm
                have hns : k ∉ seen := fun hc => hs (by simp [hc])
                exact ⟨hns, e', List.mem_cons_of_mem _ he', hk'⟩
            · rintro ⟨hs, e', he', hk'⟩
              rcases List.mem_cons.mp he' with rfl | hm
              · rw [hke] at hk'
                injection hk' with hkk
                subst hkk
                exact List.mem_cons_self _ _
              · by_cases hkk : k = k'
                · subst hkk
                  exact List.mem_cons_self _ _
                · refine List.mem_cons_of_mem _ ((ih (seen ++ [k']) k).mpr ⟨?_, e', hm, hk'⟩)
                  intro hc
                  rcases List.mem_append.mp hc with hc1 | hc2
                  · exact hs hc1
                  · exact hkk (by simpa using hc2)

theorem nodup_firstOccKeysFrom (rs : List JSValue) :
    ∀ seen : List String, (firstOccKeysFrom seen rs).Nodup := by
  induction rs with
  | nil => intro seen; simp [firstOccKeysFrom]
  | cons e rest ih =>
      intro seen
      cases hke : recordKey? e with
      | none => simpa [firstOccKeysFrom, hke] using ih seen
      | some k' =>
          by_cases hmem : k' ∈ seen
          · simpa [firstOccKeysFrom, hke, hmem] using ih seen
          · rw [show firstOccKeysFrom seen (e :: rest)
                = k' :: firstOccKeysFrom (seen ++ [k']) rest from by
              simp [firstOccKeysFrom, hke, hmem]]
            refine List.nodup_cons.mpr ⟨?_, ih (seen ++ [k'])⟩
            intro hc
            exact ((mem_firstOccKeysFrom rest (seen ++ [k']) k').mp hc).1 (by simp)

theorem firstOccKeysFrom_cons_some (e : JSValue) (rest : List JSValue) (k : String)
    (hk : recordKey? e = some k) :
    firstOccKeysFrom [] (e :: rest) = k :: firstOccKeysFrom [k] rest := by
  simp [firstOccKeysFrom, hk]

theorem lookupField_of_mem (m : ErrMap) (k : String) (l : List JSValue)
    (hnd : (m.map Prod.fst).Nodup) (hm : (k, l) ∈ m) :
    lookupField m k = some l := by
  induction m with
  | nil => cases hm
  | cons p rest ih =>
      obtain ⟨k', v⟩ := p
      rcases List.mem_cons.mp hm with heq | hmem
      · cases heq
        simp [lookupField]
      · have hk' : k' ≠ k := by
          intro heq
          subst heq
          have : k' ∈ rest.map Prod.fst :=
            List.mem_map.mpr ⟨(k', l), hmem, rfl⟩
          exact (List.nodup_cons.mp (by simpa using hnd)).1 this
        have hrest : (rest.map Prod.fst).Nodup :=
          (List.nodup_cons.mp (by simpa using hnd)).2
        simp [lookupField, hk', ih hrest hmem]

theorem mem_of_lookupField (m : ErrMap) (k : String) (l : List JSValue)
    (h : lookupField m k = some l) : (k, l) ∈ m := by
  induction m with
  | nil => cases h
  | cons p rest ih =>
      obtain ⟨k', v⟩ := p
      by_cases hk : k' = k
      · subst hk
        simp only [lookupField, if_pos rfl] at h
        injection h with hv
        subst hv
        exact List.mem_cons_self _ _
      · simp only [lookupField, hk, if_false] at h
        exact List.mem_cons_of_mem _ (ih h)

theorem head?_filter {α : Type} (p : α → Bool) (l : List α) :
    (l.filter p).head? = l.find? p := by
  induction l with
  | nil => rfl
  | cons a l ih =>
      by_cases h : p a
      · simp [List.filter_cons, h]
      · simp [List.filter_cons, h, ih]

/-!
## `gatherErrors` characterizations
-/

theorem length_reduceGroupedErrors (m : ErrMap) :
    (reduceGroupedErrors m).length = m.length := by
  simp [reduceGroupedErrors]

theorem map_fst_reduceGroupedErrors (m : ErrMap) :
    (reduceGroupedErrors m).map Prod.fst = m.map Prod.fst := by
  simp [reduceGroupedErrors]

theorem gatherErrors_of_groupAll_ok (b : Bool) (L : List JSValue) (g : ErrMap)
    (h : groupAll L = .ok g) :
    gatherErrors b L = .ok (if (if b then reduceGroupedErrors g else g).length ≠ 0
      then .reject (if b then reduceGroupedErrors g else g) else .resolve) := by
  unfold gatherErrors
  rw [h]
  rfl

theorem gatherErrors_of_groupAll_error (b : Bool) (L : List JSValue)
    (h : groupAll L = .error ()) : gatherErrors b L = .error () := by
  unfold gatherErrors
  rw [h]
  rfl

theorem groupAll_eq_fold (L : List JSValue) :
    groupAll L = (recordsOf L).foldlM groupStep [] := by
  rw [groupAll, foldlM_groupUnit_eq]

/-- The engine resolves success exactly when the units contributed no
record at all. -/
theorem gatherErrors_resolve_iff (b : Bool) (L : List JSValue) :
    gatherErrors b L = .ok .resolve ↔ recordsOf L = [] := by
  constructor
  · intro h
    cases hg : groupAll L with
    | error u =>
        cases u
        rw [gatherErrors_of_groupAll_error b L hg] at h
        cases h
    | ok g =>
        rw [gatherErrors_of_groupAll_ok b L g hg] at h
        have hglen : (if b then reduceGroupedErrors g else g).length = 0 := by
          by_contra hc
          rw [if_pos hc] at h
          injection h with h'
          cases h'
        have hgnil : g = [] := by
          cases b with
          | false => simpa using List.length_eq_zero.mp (by simpa using hglen)
          | true =>
              rw [if_pos rfl, length_reduceGroupedErrors] at hglen
              exact List.length_eq_zero.mp hglen
        subst hgnil
        rw [groupAll_eq_fold] at hg
        have hkeys : ∀ e ∈ recordsOf L, (recordKey? e).isSome :=
          (groupFold_ok_iff (recordsOf L) []).mp ⟨[], hg⟩
        obtain ⟨m', hfold, hkeys', _⟩ := groupFold_ok (recordsOf L) [] hkeys
        have hm' : m' = [] := by
          rw [hg] at hfold
          injection hfold with h'
          exact h'.symm
        subst hm'
        cases hrec : recordsOf L with
        | nil => rfl
        | cons e rs =>
            exfalso
            have hke := hkeys e (by rw [hrec]; simp)
            obtain ⟨k, hk⟩ := Option.isSome_iff_exists.mp hke
            simp only [List.map_nil, List.nil_append] at hkeys'
            rw [hrec, firstOccKeysFrom_cons_some e rs k hk] at hkeys'
            simp at hkeys'
  · intro h
    have hok : groupAll L = .ok [] := by
      rw [groupAll_eq_fold, h]
      rfl
    rw [gatherErrors_of_groupAll_ok b L [] hok]
    cases b <;> simp [reduceGroupedErrors]

/-- When every record's key evaluates and at least one record exists,
the engine rejects with the grouped (optionally reduced) mapping, whose
keys are the record keys in first-occurrence order and whose entries
collect the records grouped under each key in dispatch order. -/
theorem gatherErrors_reject_spec (b : Bool) (L : List JSValue)
    (hkeys : ∀ e ∈ recordsOf L, (recordKey? e).isSome)
    (hne : recordsOf L ≠ []) :
    ∃ g, gatherErrors b L = .ok (.reject (if b then reduceGroupedErrors g else g)) ∧
      g.map Prod.fst = firstOccKeysFrom [] (recordsOf L) ∧
      ∀ k, lookupField g k = joinLookup none (recordsWithKey k (recordsOf L)) := by
  obtain ⟨g, hfold, hkeys', hlook⟩ := groupFold_ok (recordsOf L) [] hkeys
  have hok : groupAll L = .ok g := by rw [groupAll_eq_fold]; exact hfold
  have hkg : g.map Prod.fst = firstOccKeysFrom [] (recordsOf L) := by simpa using hkeys'
  have hlg : ∀ k, lookupField g k = joinLookup none (recordsWithKey k (recordsOf L)) := by
    intro k
    simpa [lookupField] using hlook k
  refine ⟨g, ?_, hkg, hlg⟩
  rw [gatherErrors_of_groupAll_ok b L g hok]
  have hgne : g ≠ [] := by
    intro hnil
    subst hnil
    cases hrec : recordsOf L with
    | nil => exact hne hrec
    | cons e rs =>
        have hke := hkeys e (by rw [hrec]; simp)
        obtain ⟨k, hk⟩ := Option.isSome_iff_exists.mp hke
        rw [hrec, firstOccKeysFrom_cons_some e rs k hk] at hkg
        simp at hkg
  have hlen : (if b then reduceGroupedErrors g else g).length ≠ 0 := by
    cases b with
    | false => simpa using fun hc => hgne (List.length_eq_zero.mp hc)
    | true =>
        rw [if_pos rfl, length_reduceGroupedErrors]
        exact fun hc => hgne (List.length_eq_zero.mp hc)
  rw [if_pos hlen]

/-- `gatherErrors` throws (its promise rejects with the `TypeError`, not
an error mapping) exactly when some record's `field` access throws. -/
theorem gatherErrors_error_iff (b : Bool) (L : List JSValue) :
    gatherErrors b L = .error () ↔ ∃ e ∈ recordsOf L, recordKey? e = none := by
  constructor
  · intro h
    by_contra hc
    push_neg at hc
    have hkeys : ∀ e ∈ recordsOf L, (recordKey? e).isSome := by
      intro e he
      cases hke : recordKey? e with
      | none => exact absurd hke (hc e he)
      | some k => simp
    obtain ⟨g, hfold, _, _⟩ := groupFold_ok (recordsOf L) [] hkeys
    have hok : groupAll L = .ok g := by rw [groupAll_eq_fold]; exact hfold
    rw [gatherErrors_of_groupAll_ok b L g hok] at h
    cases h
  · rintro ⟨e, he, hke⟩
    have : ¬∃ g, groupAll L = .ok g := by
      rw [groupAll_eq_fold]
      intro hex
      have := (groupFold_ok_iff (recordsOf L) []).mp hex e he
      rw [hke] at this
      cases this
    cases hg : groupAll L with
    | ok g => exact absurd ⟨g, hg⟩ this
    | error u =>
        cases u
        exact gatherErrors_of_groupAll_error b L hg

/-!
## Engine-level reductions
-/

theorem validatorQueue_eq (fvs : List (String × JSValue)) (settle : String → JSValue) :
    fvs.foldl (fun q p => queueValidator q (settle p.1)) [] =
      fvs.map fun p => settle p.1 := by
  suffices h : ∀ q : List JSValue,
      fvs.foldl (fun q p => queueValidator q (settle p.1)) q =
        q ++ fvs.map (fun p => settle p.1) by
    simpa using h []
  induction fvs with
  | nil => intro q; simp
  | cons p fvs ih =>
      intro q
      rw [List.foldl_cons, ih]
      simp [queueValidator]

theorem runProcessor_nil (b : Bool) (settle : String → JSValue) :
    runProcessor [] b settle = .ok .resolve := rfl

theorem runProcessor_eq_gatherErrors (fvs : List (String × JSValue)) (b : Bool)
    (settle : String → JSValue) (h : fvs ≠ []) :
    runProcessor fvs b settle = gatherErrors b (fvs.map fun p => settle p.1) := by
  unfold runProcessor
  rw [validatorQueue_eq]
  have hlen : (fvs.map fun p => settle p.1).length ≠ 0 := by
    simpa using fun hc => h (List.length_eq_zero.mp hc)
  rw [if_pos hlen]

/-!
## Facts about results, records and fields
-/

theorem mem_recordsOf (L : List JSValue) (e : JSValue) :
    e ∈ recordsOf L ↔ ∃ r ∈ L, e ∈ unitRecords r := by
  simp [recordsOf]

theorem mem_recordedFields (L : List JSValue) (k : String) :
    k ∈ recordedFields L ↔ ∃ e ∈ recordsOf L, recordKey? e = some k := by
  simp [recordedFields, List.mem_filterMap]

theorem recordsOf_eq_nil_of_not_failing (L : List JSValue)
    (h : ∀ r ∈ L, failingResult r = false) : recordsOf L = [] := by
  induction L with
  | nil => rfl
  | cons r L ih =>
      have hr : unitRecords r = [] := by
        have := h r (by simp)
        cases r with
        | vArr es =>
            simp [failingResult] at this
            simpa [unitRecords] using this
        | vUndefined => rfl
        | vNull => rfl
        | vBool x => rfl
        | vNum x => rfl
        | vStr x => rfl
        | vObj x => rfl
      have hL : recordsOf L = [] := ih fun r' hr' => h r' (by simp [hr'])
      simp [recordsOf] at hL ⊢
      exact ⟨by simpa [recordsOf] using hr, by simpa [recordsOf] using hL⟩

theorem recordKey?_of_isErrorRecord (e : JSValue) (h : isErrorRecord e = true) :
    ∃ s props, e = .vObj props ∧ props.lookup "field" = some (.vStr s) ∧
      recordKey? e = some s := by
  cases e with
  | vObj props =>
      cases hf : props.lookup "field" with
      | none => simp [isErrorRecord, hf] at h
      | some fv =>
          cases fv with
          | vStr s =>
              exact ⟨s, props, rfl, hf, by simp [recordKey?, jsFieldAccess, hf, jsToString]⟩
          | vUndefined => simp [isErrorRecord, hf] at h
          | vNull => simp [isErrorRecord, hf] at h
          | vBool x => simp [isErrorRecord, hf] at h
          | vNum x => simp [isErrorRecord, hf] at h
          | vObj x => simp [isErrorRecord, hf] at h
          | vArr x => simp [isErrorRecord, hf] at h
  | vUndefined => simp [isErrorRecord] at h
  | vNull => simp [isErrorRecord] at h
  | vBool x => simp [isErrorRecord] at h
  | vNum x => simp [isErrorRecord] at h
  | vStr x => simp [isErrorRecord] at h
  | vArr x => simp [isErrorRecord] at h

theorem recordKey?_isSome_of_wf (L : List JSValue)
    (hwf : ∀ r ∈ L, wfResult r = true) :
    ∀ e ∈ recordsOf L, (recordKey? e).isSome := by
  intro e he
  obtain ⟨r, hr, her⟩ := (mem_recordsOf L e).mp he
  have hw := hwf r hr
  cases r with
  | vArr es =>
      simp only [unitRecords] at her
      simp only [wfResult] at hw
      rcases Bool.or_eq_true_iff.mp hw with hemp | hall
      · rw [List.isEmpty_iff.mp hemp] at her
        cases her
      · have := List.all_eq_true.mp hall e her
        obtain ⟨s, props, _, _, hk⟩ := recordKey?_of_isErrorRecord e this
        simp [hk]
  | vUndefined => cases her
  | vNull => cases her
  | vBool x => cases her
  | vNum x => cases her
  | vStr x => cases her
  | vObj x => cases her

/-- C5 helper and C1 both use this: a result list with a failing unit has
a record. -/
theorem recordsOf_ne_nil_of_failing (L : List JSValue) (r : JSValue)
    (hr : r ∈ L) (hf : failingResult r = true) : recordsOf L ≠ [] := by
  cases r with
  | vArr es =>
      cases es with
      | nil => simp [failingResult] at hf
      | cons e es' =>
          intro hnil
          have : e ∈ recordsOf L :=
            (mem_recordsOf L e).mpr ⟨.vArr (e :: es'), hr, by simp [unitRecords]⟩
          rw [hnil] at this
          cases this
  | vUndefined => simp [failingResult] at hf
  | vNull => simp [failingResult] at hf
  | vBool x => simp [failingResult] at hf
  | vNum x => simp [failingResult] at hf
  | vStr x => simp [failingResult] at hf
  | vObj x => simp [failingResult] at hf

/-!
## Claim theorems
-/

/-- C5: with an empty `fieldValidators` mapping (also the default when
the option or the whole configuration object is omitted), zero validator
units are queued and the engine resolves success immediately, for every
reduction flag and independently of how any collaborator would settle. -/
theorem C5_empty_fieldValidators_resolves (b : Bool) (settle : String → JSValue) :
    runProcessor [] b settle = .ok .resolve ∧
      ([] : List (String × JSValue)).foldl
        (fun q p => queueValidator q (settle p.1)) [] = [] :=
  ⟨rfl, rfl⟩

/-- C1: over well-shaped unit results, the engine resolves success when
no unit fails, and rejects when some unit fails, with an error mapping
whose key set is exactly the set of fields for which at least one error
record was produced. -/
theorem C1_outcome_classification (fvs : List (String × JSValue)) (b : Bool)
    (settle : String → JSValue)
    (hwf : ∀ r ∈ fvs.map (fun p => settle p.1), wfResult r = true) :
    ((∀ r ∈ fvs.map (fun p => settle p.1), failingResult r = false) →
        runProcessor fvs b settle = .ok .resolve) ∧
    ((∃ r ∈ fvs.map (fun p => settle p.1), failingResult r = true) →
        ∃ m, runProcessor fvs b settle = .ok (.reject m) ∧
          ∀ k, k ∈ m.map Prod.fst ↔
            k ∈ recordedFields (fvs.map fun p => settle p.1)) := by
  set L := fvs.map (fun p => settle p.1) with hL
  constructor
  · intro hnf
    cases fvs with
    | nil => exact runProcessor_nil b settle
    | cons p fvs' =>
        rw [runProcessor_eq_gatherErrors _ b settle (by simp)]
        rw [gatherErrors_resolve_iff]
        exact recordsOf_eq_nil_of_not_failing L hnf
  · rintro ⟨r, hr, hfail⟩
    have hfvs : fvs ≠ [] := by
      intro hnil
      rw [hnil] at hL
      rw [hL] at hr
      cases hr
    have hne : recordsOf L ≠ [] := recordsOf_ne_nil_of_failing L r hr hfail
    have hkeys := recordKey?_isSome_of_wf L hwf
    obtain ⟨g, hout, hkg, _⟩ := gatherErrors_reject_spec b L hkeys hne
    refine ⟨if b then reduceGroupedErrors g else g, ?_, ?_⟩
    · rw [runProcessor_eq_gatherErrors fvs b settle hfvs]
      exact hout
    · intro k
      have hmf : (if b then reduceGroupedErrors g else g).map Prod.fst = g.map Prod.fst := by
        cases b <;> simp [map_fst_reduceGroupedErrors]
      rw [hmf, hkg, mem_firstOccKeysFrom, mem_recordedFields]
      simp

theorem C1_outcome_classification_witness :
    runProcessor [("name", JSValue.vNull)] false (fun _ => JSValue.vArr [])
      = .ok .resolve :=
  (C1_outcome_classification [("name", .vNull)] false (fun _ => .vArr [])
      (by intro r hr; simp at hr; subst hr; rfl)).1
    (by intro r hr; simp at hr; subst hr; rfl)

/-- Inversion: a rejection exposes the grouped mapping and its
characterization. -/
theorem gatherErrors_reject_inv (b : Bool) (L : List JSValue) (m : ErrMap)
    (h : gatherErrors b L = .ok (.reject m)) :
    ∃ g, groupAll L = .ok g ∧ m = (if b then reduceGroupedErrors g else g) ∧
      g.map Prod.fst = firstOccKeysFrom [] (recordsOf L) ∧
      (∀ k, lookupField g k = joinLookup none (recordsWithKey k (recordsOf L))) ∧
      (∀ e ∈ recordsOf L, (recordKey? e).isSome) := by
  cases hg : groupAll L with
  | error u =>
      cases u
      rw [gatherErrors_of_groupAll_error b L hg] at h
      cases h
  | ok g =>
      have hkeys : ∀ e ∈ recordsOf L, (recordKey? e).isSome := by
        apply (groupFold_ok_iff (recordsOf L) []).mp
        exact ⟨g, by rw [← groupAll_eq_fold]; exact hg⟩
      obtain ⟨g', hfold, hkg', hlook'⟩ := groupFold_ok (recordsOf L) [] hkeys
      rw [← groupAll_eq_fold, hg] at hfold
      injection hfold with hgg
      subst hgg
      rw [gatherErrors_of_groupAll_ok b L g hg] at h
      injection h with h'
      by_cases hc : (if b then reduceGroupedErrors g else g).length ≠ 0
      · rw [if_pos hc] at h'
        injection h' with hm
        exact ⟨g, rfl, hm.symm, by simpa using hkg', by simpa using hlook', hkeys⟩
      · rw [if_neg hc] at h'
        cases h'

/-- The rejection mapping's key insertion order is the order in which
each field's first error record occurs in the flattened processing order
of the unit results, with or without reduction. -/
theorem gatherErrors_keys_order (b : Bool) (L : List JSValue) (m : ErrMap)
    (h : gatherErrors b L = .ok (.reject m)) :
    m.map Prod.fst = firstOccKeysFrom [] (recordsOf L) := by
  obtain ⟨g, _, hm, hkg, _, _⟩ := gatherErrors_reject_inv b L m h
  rw [hm]
  cases b <;> simpa [map_fst_reduceGroupedErrors] using hkg

/-- When no key is an array index, `Object.keys` enumeration is plain
insertion order. -/
theorem jsOwnKeys_of_no_index (m : ErrMap)
    (h : ∀ k ∈ m.map Prod.fst, isArrayIndexKey k = false) :
    jsOwnKeys m = m.map Prod.fst := by
  unfold jsOwnKeys
  have h1 : (m.map Prod.fst).filter isArrayIndexKey = [] :=
    List.filter_eq_nil_iff.mpr (by intro a ha; simp [h a ha])
  have h2 : (m.map Prod.fst).filter (fun k => !isArrayIndexKey k) = m.map Prod.fst :=
    List.filter_eq_self.mpr (by intro a ha; simp [h a ha])
  rw [h1, h2]
  rfl

/-- C6 counterexample: with records for field "1" then field "0" in
dispatch order, the payload's own-property table inserts "1" before
"0", but `Object.keys` enumerates the array-index keys in ascending
numeric order, yielding ["0", "1"] — not the first-occurrence order
["1", "0"] the claim requires. -/
theorem C6_counterexample :
    gatherErrors false [JSValue.vArr [JSValue.vObj [("field", JSValue.vStr "1")],
        JSValue.vObj [("field", JSValue.vStr "0")]]]
      = .ok (.reject [("1", [JSValue.vObj [("field", JSValue.vStr "1")]]),
          ("0", [JSValue.vObj [("field", JSValue.vStr "0")]])]) ∧
    jsOwnKeys [("1", [JSValue.vObj [("field", JSValue.vStr "1")]]),
        ("0", [JSValue.vObj [("field", JSValue.vStr "0")]])] = ["0", "1"] ∧
    firstOccKeysFrom []
        (recordsOf [JSValue.vArr [JSValue.vObj [("field", JSValue.vStr "1")],
          JSValue.vObj [("field", JSValue.vStr "0")]]]) = ["1", "0"] ∧
    (["0", "1"] : List String) ≠ ["1", "0"] := by
  refine ⟨?_, by decide, ?_, by decide⟩
  · simp [gatherErrors, groupAll, groupUnit, groupStep, jsFieldAccess, jsToString,
      lookupField, pushAt, reduceGroupedErrors]
  · simp [firstOccKeysFrom, recordsOf, unitRecords, recordKey?, jsFieldAccess, jsToString]

/-- C6 (amended): when the engine rejects and no produced field name is
an array-index string, the enumerated key order of the payload equals
the order in which each field's first error record is encountered in
dispatch order — the queue follows the field enumeration order of
`fieldValidators`, and the records of each unit are flattened in that
order — not the declaration order of the fields; reduction does not
change this order.  (Array-index field names are instead enumerated
first, in ascending numeric order, as the counterexample shows.) -/
theorem C6_amended_key_enumeration_order (fvs : List (String × JSValue)) (b : Bool)
    (settle : String → JSValue) (m : ErrMap)
    (h : runProcessor fvs b settle = .ok (.reject m))
    (hidx : ∀ e ∈ recordsOf (fvs.map fun p => settle p.1), ∀ k,
      recordKey? e = some k → isArrayIndexKey k = false) :
    jsOwnKeys m = firstOccKeysFrom [] (recordsOf (fvs.map fun p => settle p.1)) := by
  have hfvs : fvs ≠ [] := by
    intro hnil
    rw [hnil, runProcessor_nil] at h
    injection h with h'
    cases h'
  rw [runProcessor_eq_gatherErrors fvs b settle hfvs] at h
  have hkeys := gatherErrors_keys_order b _ m h
  have hno : ∀ k ∈ m.map Prod.fst, isArrayIndexKey k = false := by
    intro k hk
    rw [hkeys] at hk
    obtain ⟨-, e, he, hke⟩ := (mem_firstOccKeysFrom _ [] k).mp hk
    exact hidx e he k hke
  rw [jsOwnKeys_of_no_index m hno, hkeys]

theorem C6_amended_key_enumeration_order_witness :
    jsOwnKeys [("b", [JSValue.vObj [("field", JSValue.vStr "b")]]),
        ("a", [JSValue.vObj [("field", JSValue.vStr "a")]])]
      = firstOccKeysFrom []
          (recordsOf ([("x", JSValue.vNull)].map fun _ =>
            JSValue.vArr [JSValue.vObj [("field", JSValue.vStr "b")],
              JSValue.vObj [("field", JSValue.vStr "a")]])) :=
  C6_amended_key_enumeration_order [("x", JSValue.vNull)] false
    (fun _ => JSValue.vArr [JSValue.vObj [("field", JSValue.vStr "b")],
      JSValue.vObj [("field", JSValue.vStr "a")]]) _
    (by
      simp [runProcessor, queueValidator, gatherErrors, groupAll, groupUnit, groupStep,
        jsFieldAccess, jsToString, lookupField, pushAt, reduceGroupedErrors])
    (by
      intro e he k hk
      simp [recordsOf, unitRecords] at he
      rcases he with rfl | rfl
      · simp [recordKey?, jsFieldAccess, jsToString] at hk
        subst hk
        decide
      · simp [recordKey?, jsFieldAccess, jsToString] at hk
        subst hk
        decide)

/-- Sample error records used by concrete instantiations. -/
def sampleAge1 : JSValue := .vObj [("field", .vStr "age"), ("type", .vStr "required")]

def sampleAge2 : JSValue := .vObj [("field", .vStr "age"), ("type", .vStr "numeric")]

/-- C2: with `reduceErrors` set, every entry of the rejection payload is
the one-element list holding the first record grouped under that field
in dispatch order. -/
theorem C2_reduce_first_error (L : List JSValue) (m : ErrMap)
    (h : gatherErrors true L = .ok (.reject m)) :
    ∀ p ∈ m, ∃ e, firstRecordFor (recordsOf L) p.1 = some e ∧ p.2 = [e] := by
  obtain ⟨g, _, hm, hkg, hlook, _⟩ := gatherErrors_reject_inv true L m h
  rw [if_pos rfl] at hm
  subst hm
  intro p hp
  obtain ⟨q, hq, hpq⟩ := List.mem_map.mp hp
  subst hpq
  have hnd : (g.map Prod.fst).Nodup := by
    rw [hkg]; exact nodup_firstOccKeysFrom _ []
  have hlq : lookupField g q.1 = some q.2 :=
    lookupField_of_mem g q.1 q.2 hnd (by simpa using hq)
  rw [hlook q.1] at hlq
  cases hrw : recordsWithKey q.1 (recordsOf L) with
  | nil =>
      rw [hrw] at hlq
      cases hlq
  | cons x xs =>
      rw [hrw] at hlq
      have hq2 : q.2 = x :: xs := by
        have : joinLookup none (x :: xs) = some (x :: xs) := rfl
        rw [this] at hlq
        injection hlq with h'
        exact h'.symm
      refine ⟨q.2.headD .vUndefined, ?_, rfl⟩
      rw [firstRecordFor, ← head?_filter]
      rw [show (recordsOf L).filter (fun e => decide (recordKey? e = some q.1))
          = recordsWithKey q.1 (recordsOf L) from rfl, hrw, hq2]
      rfl

theorem C2_reduce_first_error_witness :
    ∃ e, firstRecordFor (recordsOf [JSValue.vArr [sampleAge1, sampleAge2]]) "age"
        = some e ∧ [sampleAge1] = [e] := by
  have h := C2_reduce_first_error [JSValue.vArr [sampleAge1, sampleAge2]]
    [("age", [sampleAge1])]
    (by simp [gatherErrors, groupAll, groupUnit, groupStep, jsFieldAccess, jsToString,
      lookupField, pushAt, reduceGroupedErrors, sampleAge1, sampleAge2])
    ("age", [sampleAge1]) (by simp)
  simpa using h

/-- C7: invariant of the rejection payload, with or without reduction:
a key is present exactly when some record was grouped under it, and
every present entry is non-empty. -/
theorem C7_mapping_invariant (b : Bool) (L : List JSValue) (m : ErrMap)
    (h : gatherErrors b L = .ok (.reject m)) :
    (∀ k, k ∈ m.map Prod.fst ↔ ∃ e ∈ recordsOf L, recordKey? e = some k) ∧
    (∀ p ∈ m, p.2 ≠ []) := by
  obtain ⟨g, _, hm, hkg, hlook, _⟩ := gatherErrors_reject_inv b L m h
  have hnd : (g.map Prod.fst).Nodup := by
    rw [hkg]; exact nodup_firstOccKeysFrom _ []
  constructor
  · intro k
    have hmf : m.map Prod.fst = g.map Prod.fst := by
      rw [hm]; cases b <;> simp [map_fst_reduceGroupedErrors]
    rw [hmf, hkg, mem_firstOccKeysFrom]
    simp
  · intro p hp
    rw [hm] at hp
    cases b with
    | true =>
        rw [if_pos rfl] at hp
        obtain ⟨q, _, hpq⟩ := List.mem_map.mp hp
        rw [← hpq]
        simp
    | false =>
        rw [if_neg (by simp)] at hp
        have hlq : lookupField g p.1 = some p.2 :=
          lookupField_of_mem g p.1 p.2 hnd (by simpa using hp)
        rw [hlook p.1] at hlq
        cases hrw : recordsWithKey p.1 (recordsOf L) with
        | nil =>
            rw [hrw] at hlq
            cases hlq
        | cons x xs =>
            rw [hrw] at hlq
            have : joinLookup none (x :: xs) = some (x :: xs) := rfl
            rw [this] at hlq
            injection hlq with h'
            rw [← h']
            simp

theorem C7_mapping_invariant_witness :
    "name" ∈ ([("name", [JSValue.vObj [("field", JSValue.vStr "name")]])] : ErrMap).map
        Prod.fst ↔
      ∃ e ∈ recordsOf [JSValue.vArr [JSValue.vObj [("field", JSValue.vStr "name")]]],
        recordKey? e = some "name" :=
  (C7_mapping_invariant false _ _ (by
    simp [gatherErrors, groupAll, groupUnit, groupStep, jsFieldAccess, jsToString,
      lookupField, pushAt, reduceGroupedErrors])).1 "name"

theorem gatherErrors_cases (b : Bool) (L : List JSValue) :
    gatherErrors b L = .ok .resolve ∨ (∃ m, gatherErrors b L = .ok (.reject m)) ∨
      gatherErrors b L = .error () := by
  cases h : gatherErrors b L with
  | error u => cases u; right; right; rfl
  | ok o =>
      cases o with
      | resolve => left; rfl
      | reject m => right; left; exact ⟨m, rfl⟩

/-- C8: the success/failure classification of the outcome is invariant
under permutations of the unit results: it depends only on which records
exist, not on processing order. -/
theorem C8_order_independence (b : Bool) (L L' : List JSValue) (hp : L.Perm L') :
    (gatherErrors b L = .ok .resolve ↔ gatherErrors b L' = .ok .resolve) ∧
    ((∃ m, gatherErrors b L = .ok (.reject m)) ↔
      ∃ m', gatherErrors b L' = .ok (.reject m')) := by
  have hrec : (recordsOf L).Perm (recordsOf L') := hp.flatMap_right unitRecords
  have hres : gatherErrors b L = .ok .resolve ↔ gatherErrors b L' = .ok .resolve := by
    rw [gatherErrors_resolve_iff, gatherErrors_resolve_iff]
    constructor
    · intro h
      exact (h ▸ hrec).symm.eq_nil
    · intro h
      exact (h ▸ hrec.symm).symm.eq_nil
  have herr : gatherErrors b L = .error () ↔ gatherErrors b L' = .error () := by
    rw [gatherErrors_error_iff, gatherErrors_error_iff]
    constructor
    · rintro ⟨e, he, hk⟩
      exact ⟨e, hrec.mem_iff.mp he, hk⟩
    · rintro ⟨e, he, hk⟩
      exact ⟨e, hrec.mem_iff.mpr he, hk⟩
  refine ⟨hres, ?_, ?_⟩
  · rintro ⟨m, hm⟩
    rcases gatherErrors_cases b L' with h1 | h2 | h3
    · rw [hres.mpr h1] at hm
      injection hm with h'
      cases h'
    · exact h2
    · rw [herr.mpr h3] at hm
      cases hm
  · rintro ⟨m', hm'⟩
    rcases gatherErrors_cases b L with h1 | h2 | h3
    · rw [hres.mp h1] at hm'
      injection hm' with h'
      cases h'
    · exact h2
    · rw [herr.mp h3] at hm'
      cases hm'

theorem C8_order_independence_witness :
    gatherErrors false [JSValue.vNull,
        JSValue.vArr [JSValue.vObj [("field", JSValue.vStr "a")]]] = .ok .resolve ↔
      gatherErrors false [JSValue.vArr [JSValue.vObj [("field", JSValue.vStr "a")]],
        JSValue.vNull] = .ok .resolve :=
  (C8_order_independence false _ _
    (List.Perm.swap (JSValue.vArr [JSValue.vObj [("field", JSValue.vStr "a")]])
      JSValue.vNull [])).1

/-!
## Tolerance of malformed unit results (C3, C4)
-/

theorem foldlM_groupUnit_filter (L : List JSValue) (m : ErrMap) :
    (L.filter fun r => r.isArr).foldlM groupUnit m = L.foldlM groupUnit m := by
  induction L generalizing m with
  | nil => rfl
  | cons r L ih =>
      by_cases ha : r.isArr
      · rw [List.filter_cons_of_pos ha, List.foldlM_cons, List.foldlM_cons]
        cases hg : groupUnit m r with
        | error u => cases u; simp
        | ok m' => simpa using ih m'
      · rw [List.filter_cons_of_neg (by simpa using ha), ih, List.foldlM_cons]
        have hpure : groupUnit m r = pure m := by
          cases r
          case vArr es => simp [JSValue.isArr] at ha
          all_goals rfl
        rw [hpure]
        rfl

/-- Discarding the non-array unit results does not change the outcome:
a non-list unit result contributes nothing. -/
theorem gatherErrors_filter_isArr (b : Bool) (L : List JSValue) :
    gatherErrors b (L.filter fun r => r.isArr) = gatherErrors b L := by
  have hga : groupAll (L.filter fun r => r.isArr) = groupAll L :=
    foldlM_groupUnit_filter L []
  unfold gatherErrors
  rw [hga]

theorem gatherErrors_ok_of_keys (b : Bool) (L : List JSValue)
    (hkeys : ∀ e ∈ recordsOf L, (recordKey? e).isSome) :
    ∃ o, gatherErrors b L = .ok o := by
  cases hrec : recordsOf L with
  | nil => exact ⟨.resolve, (gatherErrors_resolve_iff b L).mpr hrec⟩
  | cons x xs =>
      obtain ⟨g, hout, _, _⟩ := gatherErrors_reject_spec b L hkeys (by rw [hrec]; simp)
      exact ⟨_, hout⟩

/-- An object record's key always evaluates (without a `field` property
it is the string "undefined"). -/
theorem recordKey?_vObj (props : List (String × JSValue)) :
    recordKey? (.vObj props) = some (jsToString ((props.lookup "field").getD .vUndefined)) := by
  simp [recordKey?, jsFieldAccess]

/-- C3 counterexample: a single unit reporting one record *without* a
`field` attribute makes the engine reject, with the record grouped under
the key "undefined" — it is not dropped, and it alone turns success into
failure. -/
theorem C3_counterexample :
    gatherErrors false [JSValue.vArr [JSValue.vObj [("type", JSValue.vStr "required")]]]
      = .ok (.reject [("undefined", [JSValue.vObj [("type", JSValue.vStr "required")]])]) ∧
    gatherErrors false [JSValue.vArr [JSValue.vObj [("type", JSValue.vStr "required")]]]
      ≠ .ok .resolve := by
  have h : gatherErrors false
      [JSValue.vArr [JSValue.vObj [("type", JSValue.vStr "required")]]]
      = .ok (.reject [("undefined", [JSValue.vObj [("type", JSValue.vStr "required")]])]) := by
    have hl : List.lookup "field" [("type", JSValue.vStr "required")] = none := rfl
    simp [gatherErrors, groupAll, groupUnit, groupStep, jsFieldAccess, jsToString,
      lookupField, pushAt, reduceGroupedErrors, hl]
  refine ⟨h, ?_⟩
  rw [h]
  intro hc
  injection hc with h'
  cases h'

/-- C3 (amended): over unit results whose list elements are all objects,
aggregation never crashes; a non-list result contributes nothing; and a
record lacking a `field` attribute is grouped under the key "undefined"
(the string form of the undefined field value) and turns the outcome
into a rejection whose mapping contains the key "undefined". -/
theorem C3_amended_tolerant_grouping (b : Bool) (L : List JSValue)
    (hobj : ∀ r ∈ L, ∀ e ∈ unitRecords r, ∃ props, e = JSValue.vObj props) :
    (∃ o, gatherErrors b L = .ok o) ∧
    (gatherErrors b (L.filter fun r => r.isArr) = gatherErrors b L) ∧
    (∀ r ∈ L, ∀ props, JSValue.vObj props ∈ unitRecords r →
        props.lookup "field" = none →
        ∃ m, gatherErrors b L = .ok (.reject m) ∧ "undefined" ∈ m.map Prod.fst) := by
  have hkeys : ∀ e ∈ recordsOf L, (recordKey? e).isSome := by
    intro e he
    obtain ⟨r, hr, her⟩ := (mem_recordsOf L e).mp he
    obtain ⟨props, rfl⟩ := hobj r hr e her
    rw [recordKey?_vObj]
    rfl
  refine ⟨gatherErrors_ok_of_keys b L hkeys, gatherErrors_filter_isArr b L, ?_⟩
  intro r hr props hprops hnf
  have hke : recordKey? (JSValue.vObj props) = some "undefined" := by
    rw [recordKey?_vObj, hnf]
    simp [jsToString]
  have hmem : JSValue.vObj props ∈ recordsOf L :=
    (mem_recordsOf L _).mpr ⟨r, hr, hprops⟩
  have hne : recordsOf L ≠ [] := by
    intro hc
    rw [hc] at hmem
    cases hmem
  obtain ⟨g, hout, hkg, _⟩ := gatherErrors_reject_spec b L hkeys hne
  refine ⟨_, hout, ?_⟩
  have hmf : (if b then reduceGroupedErrors g else g).map Prod.fst = g.map Prod.fst := by
    cases b <;> simp [map_fst_reduceGroupedErrors]
  rw [hmf, hkg, mem_firstOccKeysFrom]
  exact ⟨by simp, JSValue.vObj props, hmem, hke⟩

theorem C3_amended_tolerant_grouping_witness :
    ∃ m, gatherErrors false [JSValue.vArr [JSValue.vObj [("type", JSValue.vStr "x")]]]
        = .ok (.reject m) ∧ "undefined" ∈ m.map Prod.fst :=
  (C3_amended_tolerant_grouping false
      [JSValue.vArr [JSValue.vObj [("type", JSValue.vStr "x")]]]
      (by
        intro r hr e he
        simp at hr
        subst hr
        simp [unitRecords] at he
        exact ⟨_, he⟩)).2.2
    (JSValue.vArr [JSValue.vObj [("type", JSValue.vStr "x")]]) (by simp)
    [("type", JSValue.vStr "x")] (by simp [unitRecords]) rfl

/-- C4 counterexample: a unit result that is a list containing `null`
makes the aggregation throw a `TypeError` (the promise rejects with the
exception, not an error mapping) — the aggregator *can* itself signal
failure on arbitrarily-shaped list elements. -/
theorem C4_counterexample :
    gatherErrors false [JSValue.vArr [JSValue.vNull]] = .error () := by
  simp [gatherErrors, groupAll, groupUnit, groupStep, jsFieldAccess]

theorem recordKey?_isSome_of_ne (e : JSValue)
    (h1 : e ≠ JSValue.vNull) (h2 : e ≠ JSValue.vUndefined) :
    (recordKey? e).isSome := by
  cases e with
  | vNull => exact absurd rfl h1
  | vUndefined => exact absurd rfl h2
  | vBool x => rfl
  | vNum x => rfl
  | vStr x => rfl
  | vObj props => rw [recordKey?_vObj]; rfl
  | vArr es => rfl

/-- C4 (amended): `gatherErrors` never throws as long as no list element
is `null` or `undefined` (property access on any other value cannot
throw), and a unit result that is not a list is treated as "no errors"
for that unit. -/
theorem C4_amended_no_throw (b : Bool) (L : List JSValue)
    (h : ∀ r ∈ L, ∀ e ∈ unitRecords r, e ≠ JSValue.vNull ∧ e ≠ JSValue.vUndefined) :
    (∃ o, gatherErrors b L = .ok o) ∧
    gatherErrors b (L.filter fun r => r.isArr) = gatherErrors b L := by
  refine ⟨?_, gatherErrors_filter_isArr b L⟩
  apply gatherErrors_ok_of_keys
  intro e he
  obtain ⟨r, hr, her⟩ := (mem_recordsOf L e).mp he
  obtain ⟨h1, h2⟩ := h r hr e her
  exact recordKey?_isSome_of_ne e h1 h2

theorem C4_amended_no_throw_witness :
    ∃ o, gatherErrors false [JSValue.vNull, JSValue.vArr [JSValue.vNum 7]]
        = .ok o :=
  (C4_amended_no_throw false [JSValue.vNull, JSValue.vArr [JSValue.vNum 7]]
      (by
        intro r hr e he
        rcases List.mem_cons.mp hr with rfl | hr'
        · cases he
        · simp at hr'
          subst hr'
          simp [unitRecords] at he
          subst he
          exact ⟨(by intro hc; cases hc), (by intro hc; cases hc)⟩)).1

/-!
## Prototype safety of the accumulator (C9)
-/

/-- Property names every ordinary object inherits from
`Object.prototype`; had `grouped` been a default `{}` object, the truthy
check `grouped[field]` would have found these on the prototype chain. -/
def objectPrototypeProps : List String :=
  ["constructor", "hasOwnProperty", "isPrototypeOf", "propertyIsEnumerable",
   "toLocaleString", "toString", "valueOf"]

/-- C9: a record whose field name coincides with an `Object.prototype`
property name is grouped into an own entry exactly like any other field
name; the accumulator has a null prototype, so its entry-existence check
consults only own entries (an empty accumulator has no entry for any
key, inherited names included). -/
theorem C9_prototype_safe (b : Bool) (s : String) (props : List (String × JSValue))
    (_hs : s ∈ objectPrototypeProps)
    (hf : props.lookup "field" = some (JSValue.vStr s)) :
    lookupField [] s = none ∧
    gatherErrors b [JSValue.vArr [JSValue.vObj props]]
      = .ok (.reject [(s, [JSValue.vObj props])]) := by
  refine ⟨rfl, ?_⟩
  have hk : recordKey? (JSValue.vObj props) = some s := by
    rw [recordKey?_vObj, hf]
    simp [jsToString]
  have hga : groupAll [JSValue.vArr [JSValue.vObj props]]
      = .ok [(s, [JSValue.vObj props])] := by
    rw [groupAll_eq_fold]
    have hrec : recordsOf [JSValue.vArr [JSValue.vObj props]]
        = [JSValue.vObj props] := by
      simp [recordsOf, unitRecords]
    rw [hrec, List.foldlM_cons, groupStep_eq_addRec [] (JSValue.vObj props) s hk]
    rfl
  rw [gatherErrors_of_groupAll_ok b _ _ hga]
  have hred : reduceGroupedErrors [(s, [JSValue.vObj props])]
      = [(s, [JSValue.vObj props])] := rfl
  cases b <;> simp [hred]

theorem C9_prototype_safe_witness :
    lookupField [] "toString" = none ∧
    gatherErrors false [JSValue.vArr [JSValue.vObj [("field", JSValue.vStr "toString")]]]
      = .ok (.reject [("toString", [JSValue.vObj [("field", JSValue.vStr "toString")]])]) :=
  C9_prototype_safe false "toString" [("field", JSValue.vStr "toString")]
    (by simp [objectPrototypeProps]) rfl

/-!
## Frame property of reduction (C10)
-/

/-- C10: on a grouped mapping whose entries are all non-empty,
`reduceGroupedErrors` keeps exactly the keys, in order, and replaces
each entry by the one-element list holding its head (it only drops
tails); in this pure embedding the input mapping itself is a value and
is untouched. -/
theorem C10_reduce_frame (m : ErrMap) (h : ∀ p ∈ m, p.2 ≠ []) :
    (reduceGroupedErrors m).map Prod.fst = m.map Prod.fst ∧
    reduceGroupedErrors m = m.map (fun p => (p.1, p.2.take 1)) ∧
    ∀ p ∈ m, ∃ x, p.2.head? = some x ∧ (p.1, [x]) ∈ reduceGroupedErrors m := by
  refine ⟨map_fst_reduceGroupedErrors m, ?_, ?_⟩
  · unfold reduceGroupedErrors
    apply List.map_congr_left
    intro p hp
    cases hp2 : p.2 with
    | nil => exact absurd hp2 (h p hp)
    | cons x xs => simp [hp2]
  · intro p hp
    cases hp2 : p.2 with
    | nil => exact absurd hp2 (h p hp)
    | cons x xs =>
        refine ⟨x, by simp [hp2], ?_⟩
        apply List.mem_map.mpr
        exact ⟨p, hp, by simp [hp2]⟩

theorem C10_reduce_frame_witness :
    (reduceGroupedErrors [("age", [sampleAge1, sampleAge2])]).map Prod.fst
      = ([("age", [sampleAge1, sampleAge2])] : ErrMap).map Prod.fst :=
  (C10_reduce_frame [("age", [sampleAge1, sampleAge2])]
      (by
        intro p hp
        simp at hp
        subst hp
        simp)).1

end Casa
